import Mathlib

/-!
Verification of the testimony search-and-term-expansion pipeline
(`backend/testimony_search.py`, `backend/search.py`, `backend/app.py`).

The Python code is shallowly embedded: strings are Lean `String`s
(manipulated as `List Char` where character-level behaviour matters,
ASCII-scoped as the corpus pipeline is), file and network effects are made
explicit (the file's lines are passed in as data, JSON parsing of a line
is an explicit `String → Option Testimony` parameter, and a ghost counter
records how many times the corpus file is opened), and the module-level
mutable state (`_file_ready`, the `search.py` corpus cache) is threaded
explicitly.
-/

namespace Bible

/-- Whitespace predicate used by Python's `str.strip()` (ASCII scope). -/
def ws (c : Char) : Bool :=
  c = ' ' || c = '\t' || c = '\n' || c = '\x0d' || c = '\x0b' || c = '\x0c'

/-- ASCII lowering of one character, the per-character behaviour of
Python's `str.lower()` on the ASCII range (other characters unchanged). -/
def lowerChar (c : Char) : Char :=
  match c with
  | 'A' => 'a' | 'B' => 'b' | 'C' => 'c' | 'D' => 'd' | 'E' => 'e'
  | 'F' => 'f' | 'G' => 'g' | 'H' => 'h' | 'I' => 'i' | 'J' => 'j'
  | 'K' => 'k' | 'L' => 'l' | 'M' => 'm' | 'N' => 'n' | 'O' => 'o'
  | 'P' => 'p' | 'Q' => 'q' | 'R' => 'r' | 'S' => 's' | 'T' => 't'
  | 'U' => 'u' | 'V' => 'v' | 'W' => 'w' | 'X' => 'x' | 'Y' => 'y'
  | 'Z' => 'z'
  | c => c

/-- `str.lower()` on a character list. -/
def lowerL (l : List Char) : List Char := l.map lowerChar

/-- `str.lower()`. -/
def pyLower (s : String) : String := String.mk (lowerL s.toList)

/-- `str.strip()` on a character list: drop leading and trailing whitespace. -/
def pyStripL (l : List Char) : List Char :=
  ((l.dropWhile ws).reverse.dropWhile ws).reverse

/-- `str.strip()`. -/
def pyStrip (s : String) : String := String.mk (pyStripL s.toList)

/-- Does `p` occur at the head of `s`? (`List.isPrefixOf`, spelled out so
that the kernel evaluates it directly.) -/
def leadsWith : List Char → List Char → Bool
  | [], _ => true
  | _ :: _, [] => false
  | p :: ps, c :: cs => p = c && leadsWith ps cs

/-- Greedy left-to-right non-overlapping occurrence counter for a fixed
nonempty pattern `p`: the scan of Python's `str.count`.  `skip` is the
number of characters of the current match still to be consumed. -/
def pyCountGo (p : List Char) : List Char → Nat → Nat
  | [], _ => 0
  | _ :: rest, k + 1 => pyCountGo p rest k
  | c :: rest, 0 =>
      if leadsWith p (c :: rest) then 1 + pyCountGo p rest (p.length - 1)
      else pyCountGo p rest 0

/-- Python's `s.count(pat)`: non-overlapping left-to-right substring
occurrences; an empty pattern counts `len(s) + 1` occurrences. -/
def pyCount (s pat : String) : Nat :=
  match pat.toList with
  | [] => s.toList.length + 1
  | p :: ps => pyCountGo (p :: ps) s.toList 0

/-- One corpus entry of `testimonies.jsonl` (fields used by the search). -/
structure Testimony where
  filename : String
  content : String
  link : String
deriving DecidableEq, Repr

/-- One scored search result, `{"filename", "link", "hitCount"}`. -/
structure ScoredResult where
  filename : String
  link : String
  hitCount : Nat
deriving DecidableEq, Repr

/-- The deduplication loop of `search_testimonies_content`
(testimony_search.py lines 115-121): lowercase each term and keep it only
when its lowercase form has not been seen yet. -/
def uniqueLower (seen : List String) : List String → List String
  | [] => []
  | t :: ts =>
      let tl := pyLower t
      if tl ∈ seen then uniqueLower seen ts
      else tl :: uniqueLower (tl :: seen) ts

/-- `unique_terms` as computed from the raw search terms. -/
def uniqueTerms (terms : List String) : List String := uniqueLower [] terms

/-- The line-reading loop of `search_testimonies_content` (lines 128-136)
for files without valid-JSON non-object lines: strip each line, skip blank
lines, skip lines raising `json.JSONDecodeError` (`parse` returning
`none`), keep JSON-object lines as records.  The fatal path taken by a
valid-JSON non-object line is modelled by `readRecordsExc` below. -/
def readRecords (parse : String → Option Testimony) : List String → List Testimony
  | [] => []
  | line :: rest =>
      let l := pyStrip line
      if l = "" then readRecords parse rest
      else
        match parse l with
        | none => readRecords parse rest
        | some t => t :: readRecords parse rest

/-- `hit_count` for one testimony (line 138): the sum over the deduplicated
terms of the occurrence count of the term in the lowercased content. -/
def hitCountOf (terms : List String) (t : Testimony) : Nat :=
  (terms.map (fun term => pyCount (pyLower t.content) term)).sum

/-- The scoring loop (lines 137-144): keep, in corpus order, a result for
every record with a positive hit count. -/
def scoreRecords (terms : List String) : List Testimony → List ScoredResult
  | [] => []
  | t :: ts =>
      let h := hitCountOf terms t
      if 0 < h then
        { filename := t.filename, link := t.link, hitCount := h } :: scoreRecords terms ts
      else scoreRecords terms ts

/-- Stable insertion into a descending-by-`hitCount` list: the element
being inserted comes from earlier in the original order than the list's
elements, so it is placed before any element of equal hit count. -/
def insertDesc (x : ScoredResult) : List ScoredResult → List ScoredResult
  | [] => [x]
  | y :: ys => if x.hitCount < y.hitCount then y :: insertDesc x ys else x :: y :: ys

/-- Stable descending sort by `hitCount`: the semantics of Python's stable
`list.sort(key=lambda x: x["hitCount"], reverse=True)` (line 149). -/
def sortDesc : List ScoredResult → List ScoredResult
  | [] => []
  | x :: xs => insertDesc x (sortDesc xs)

/-- Ghost module state: how many times the corpus file has been opened. -/
structure ModuleState where
  reads : Nat
deriving DecidableEq, Repr

/-- `search_testimonies_content` (testimony_search.py lines 112-150).
`file` is the outcome of opening the corpus file (`none`: the open or the
read raised, which the code turns into an empty result).  Every call that
reaches line 128 opens the file, recorded in the ghost read counter. -/
def search_testimonies_content (parse : String → Option Testimony)
    (searchTerms : List String) (file : Option (List String))
    (s : ModuleState) : List ScoredResult × ModuleState :=
  if uniqueTerms searchTerms = [] then ([], s)
  else
    match file with
    | none => ([], { reads := s.reads + 1 })
    | some lines =>
        (sortDesc (scoreRecords (uniqueTerms searchTerms) (readRecords parse lines)),
         { reads := s.reads + 1 })

/-- The fixed suffix list `SUFFIXES` (testimony_search.py line 16). -/
def SUFFIXES : List String :=
  ["s", "es", "ed", "d", "ing", "er", "ers", "ly", "tion", "sion", "ment",
   "ness", "ful", "less", "ous", "ive", "al", "ity"]

/-- Membership in `"aeiou"`. -/
def isVowel (c : Char) : Bool :=
  c = 'a' || c = 'e' || c = 'i' || c = 'o' || c = 'u'

/-- Membership in `"aeiouwy"`. -/
def isVowelWY (c : Char) : Bool := isVowel c || c = 'w' || c = 'y'

/-- All candidate derivative strings generated by `generate_derivatives`
for the normalized word `wl` (lines 85-105), before set-collapse and
removal of the word itself. -/
def deriveCandidates (wl : List Char) : List (List Char) :=
  let base := SUFFIXES.map (fun suf => wl ++ suf.toList)
  let rev := wl.reverse
  let eForms :=
    if rev.head? = some 'e' then
      [wl.dropLast ++ "ing".toList, wl ++ "d".toList, wl.dropLast ++ "ation".toList]
    else []
  let yForms :=
    if rev.head? = some 'y' then
      [wl.dropLast ++ "ies".toList, wl.dropLast ++ "ied".toList,
       wl.dropLast ++ "ier".toList]
    else []
  let cvc :=
    match rev with
    | c1 :: c2 :: c3 :: _ =>
        if ¬isVowelWY c1 ∧ isVowel c2 ∧ ¬isVowel c3 then
          [wl ++ [c1] ++ "ing".toList, wl ++ [c1] ++ "ed".toList,
           wl ++ [c1] ++ "er".toList]
        else []
    | _ => []
  base ++ eForms ++ yForms ++ cvc

/-- Remove duplicates keeping first occurrences (the effect of collecting
the candidates into a Python `set`, exposed as a duplicate-free list). -/
def dedupGo (seen : List (List Char)) : List (List Char) → List (List Char)
  | [] => []
  | x :: xs => if x ∈ seen then dedupGo seen xs else x :: dedupGo (x :: seen) xs

/-- Lexicographic code-point comparison: Python's `<` on strings. -/
def lexLt : List Char → List Char → Bool
  | [], [] => false
  | [], _ :: _ => true
  | _ :: _, [] => false
  | a :: as, b :: bs => if a < b then true else if b < a then false else lexLt as bs

/-- Insertion into a lexicographically sorted list. -/
def insertLex (x : List Char) : List (List Char) → List (List Char)
  | [] => [x]
  | y :: ys => if lexLt y x then y :: insertLex x ys else x :: y :: ys

/-- Python's `sorted` on a list of strings. -/
def sortLex : List (List Char) → List (List Char)
  | [] => []
  | x :: xs => insertLex x (sortLex xs)

/-- `generate_derivatives` (testimony_search.py lines 79-109): normalize
with `strip().lower()`, return `[]` when shorter than 2 characters,
otherwise collect all suffix candidates into a set, discard the normalized
word itself, and return the sorted set. -/
def generate_derivatives (word : String) : List String :=
  let wl := lowerL (pyStripL word.toList)
  if wl.length < 2 then []
  else
    (sortLex (dedupGo [] ((deriveCandidates wl).filter (· ≠ wl)))).map String.mk

/-- One `{"term", "derivatives"}` pair of the suggestion endpoint. -/
structure SuggestedTerm where
  term : String
  derivatives : List String
deriving DecidableEq, Repr

/-- The query-term enrichment of the `/testimonies-suggest` endpoint
(app.py lines 193-197): split the query on commas, strip each piece,
drop empties, and attach derivatives in the user's original order. -/
def enrich_user_terms (query : String) : List SuggestedTerm :=
  let userTerms := ((query.splitOn ",").map pyStrip).filter (· ≠ "")
  userTerms.map (fun t => { term := t, derivatives := generate_derivatives t })

/-- Key comparison of `suggest_terms`'s sort: `x["term"].lower()`. -/
def termKeyLt (a b : SuggestedTerm) : Bool :=
  lexLt (lowerL a.term.toList) (lowerL b.term.toList)

/-- Stable insertion for the ascending case-insensitive sort by term. -/
def insertByTerm (x : SuggestedTerm) : List SuggestedTerm → List SuggestedTerm
  | [] => [x]
  | y :: ys => if termKeyLt y x then y :: insertByTerm x ys else x :: y :: ys

/-- Stable ascending sort by lowercased term: the semantics of
`sorted(..., key=lambda x: x["term"].lower())`. -/
def sortByTerm : List SuggestedTerm → List SuggestedTerm
  | [] => []
  | x :: xs => insertByTerm x (sortByTerm xs)

/-- The enrichment step of `suggest_terms` (testimony_search.py lines
190-195): attach derivatives to each raw suggested term (the raw terms
come from the external model call, taken here as input) and sort
alphabetically, case-insensitively, by term. -/
def enrich_suggestions (rawTerms : List String) : List SuggestedTerm :=
  sortByTerm
    (rawTerms.map (fun t => { term := t, derivatives := generate_derivatives t }))

/-- Number of lines with non-blank `strip()`, the validation count of
`ensure_testimonies_file` (lines 64-69). -/
def countNonBlank (lines : List String) : Nat :=
  (lines.filter (fun l => pyStrip l ≠ "")).length

/-- Environment of one `ensure_testimonies_file` call: whether the local
file is missing or a Git LFS pointer, whether the download succeeds, and
the outcome of re-reading the file for validation (`none`: the read
raised). -/
structure EnsureEnv where
  isPointer : Bool
  downloadOk : Bool
  readLines : Option (List String)
deriving DecidableEq, Repr

/-- `ensure_testimonies_file` (testimony_search.py lines 47-76) as a
function of the `_file_ready` flag and the call's environment; returns the
Python return value and the new `_file_ready` flag.  (The lock makes the
body sequential; the interleaved behaviour is modelled separately by
`EnsureSys`.) -/
def ensure_testimonies_file (ready : Bool) (env : EnsureEnv) : Int × Bool :=
  if ready then (-1, ready)
  else if env.isPointer && !env.downloadOk then (0, false)
  else
    match env.readLines with
    | none => (0, false)
    | some lines => ((countNonBlank lines : Int), true)

/-- The abort-on-failure parse loop of `search.py`'s
`load_testimonies_data` (lines 188-192): one malformed line raises, so the
whole load fails. -/
def parseAllLines (parse : String → Option Testimony) :
    List String → Option (List Testimony)
  | [] => some []
  | line :: rest =>
      if pyStrip line = "" then parseAllLines parse rest
      else
        match parse (pyStrip line) with
        | none => none
        | some t => (parseAllLines parse rest).map (t :: ·)

/-- `load_testimonies_data` (search.py lines 183-197): if the module cache
is populated, return it without touching the file; otherwise read and
parse the file (counting the read in the ghost counter), caching `[]` on
any failure.  Returns the corpus, the new cache, and the new read count. -/
def load_testimonies_data (parse : String → Option Testimony)
    (file : Option (List String)) (cache : Option (List Testimony))
    (reads : Nat) : List Testimony × Option (List Testimony) × Nat :=
  match cache with
  | some d => (d, some d, reads)
  | none =>
      match file with
      | none => ([], some [], reads + 1)
      | some lines =>
          match parseAllLines parse lines with
          | none => ([], some [], reads + 1)
          | some ts => (ts, some ts, reads + 1)

/-! ### Interleaved model of concurrent `ensure_testimonies_file` calls

Each thread runs the body of `ensure_testimonies_file`: an unlocked fast
check of `_file_ready`, acquisition of `_file_lock`, a second check under
the lock, and (when still not ready) the fetch-and-validate pass, whose
outcome (`some n`: validated with `n` entries, `none`: download or read
failed) sets `_file_ready` on success.  The pass runs entirely under the
lock, so it is one atomic step here; the ghost counters record how many
passes (and successful passes) were ever performed. -/

/-- Program counter of one thread inside `ensure_testimonies_file`. -/
inductive EnsurePC where
  | start
  | acquiring
  | locked
  | done
deriving DecidableEq, Repr

/-- One thread: its program counter and its return value once done. -/
structure EnsureThread where
  pc : EnsurePC
  ret : Option Int
deriving DecidableEq, Repr

/-- Shared state: the readiness flag, the lock, all threads, and ghost
counters of performed and successful fetch-and-validate passes. -/
structure EnsureSys where
  ready : Bool
  lockHolder : Option Nat
  threads : List EnsureThread
  passes : Nat
  succPasses : Nat
deriving DecidableEq, Repr

/-- One scheduler action: which thread steps, and for a pass, its
outcome. -/
inductive EnsureAct where
  | fastCheck (i : Nat)
  | acquire (i : Nat)
  | secondCheck (i : Nat)
  | pass (i : Nat) (outcome : Option Nat)
deriving DecidableEq, Repr

/-- Small-step semantics of the interleaved execution; `none` means the
action is not enabled in the given state. -/
def ensureStep (s : EnsureSys) : EnsureAct → Option EnsureSys
  | .fastCheck i =>
      match s.threads[i]? with
      | some t =>
          if t.pc = .start then
            if s.ready then
              some { s with threads := s.threads.set i { pc := .done, ret := some (-1) } }
            else
              some { s with threads := s.threads.set i { pc := .acquiring, ret := none } }
          else none
      | none => none
  | .acquire i =>
      match s.threads[i]?, s.lockHolder with
      | some t, none =>
          if t.pc = .acquiring then
            some { s with threads := s.threads.set i { pc := .locked, ret := none },
                          lockHolder := some i }
          else none
      | _, _ => none
  | .secondCheck i =>
      match s.threads[i]? with
      | some t =>
          if t.pc = .locked ∧ s.lockHolder = some i ∧ s.ready then
            some { s with threads := s.threads.set i { pc := .done, ret := some (-1) },
                          lockHolder := none }
          else none
      | none => none
  | .pass i outcome =>
      match s.threads[i]? with
      | some t =>
          if t.pc = .locked ∧ s.lockHolder = some i ∧ s.ready = false then
            match outcome with
            | some n =>
                some { ready := true, lockHolder := none,
                       threads := s.threads.set i { pc := .done, ret := some (n : Int) },
                       passes := s.passes + 1, succPasses := s.succPasses + 1 }
            | none =>
                some { ready := false, lockHolder := none,
                       threads := s.threads.set i { pc := .done, ret := some 0 },
                       passes := s.passes + 1, succPasses := s.succPasses }
          else none
      | none => none

/-- Run a sequence of scheduler actions. -/
def ensureRun (s : EnsureSys) : List EnsureAct → Option EnsureSys
  | [] => some s
  | a :: acts =>
      match ensureStep s a with
      | none => none
      | some s' => ensureRun s' acts

/-- Initial state for `n` concurrent `ensure_testimonies_file` calls in a
fresh process. -/
def ensureInit (n : Nat) : EnsureSys :=
  { ready := false, lockHolder := none,
    threads := List.replicate n { pc := .start, ret := none },
    passes := 0, succPasses := 0 }

/-- Concrete line parser for the spec's two-record scenario corpus: line
`"A"` is the record `a.docx`, line `"B"` the record `b.docx`. -/
def parseScenario : String → Option Testimony := fun s =>
  if s = "A" then
    some { filename := "a.docx", content := "God healed me of cancer", link := "" }
  else if s = "B" then
    some { filename := "b.docx", content := "cancer cancer treatment", link := "http://x" }
  else none

/-- Concrete line parser for a one-record corpus whose content contains a
space. -/
def parseSpace : String → Option Testimony := fun s =>
  if s = "r" then some { filename := "f.docx", content := "a b", link := "" }
  else none

/-- Outcome of `json.loads` plus field extraction for one stripped line:
`record` when the line is a JSON object (field extraction via
`testimony.get` succeeds), `decodeError` when `json.loads` raises
`json.JSONDecodeError` (caught at line 135, line skipped), and
`nonObject` when the line is syntactically valid JSON that is not an
object — `json.loads` succeeds but `testimony.get` at line 137 raises
`AttributeError`, which no inner handler catches. -/
inductive LineParse where
  | record (t : Testimony)
  | decodeError
  | nonObject
deriving DecidableEq, Repr

/-- The reading loop of `search_testimonies_content` (lines 128-144) with
the exception channel made explicit: `none` means some line raised an
exception other than `json.JSONDecodeError` (a valid-JSON non-object
line), which escapes the loop to the outer handler at line 145. -/
def readRecordsExc (parse : String → LineParse) : List String → Option (List Testimony)
  | [] => some []
  | line :: rest =>
      if pyStrip line = "" then readRecordsExc parse rest
      else
        match parse (pyStrip line) with
        | .decodeError => readRecordsExc parse rest
        | .nonObject => none
        | .record t => (readRecordsExc parse rest).map (fun ts => t :: ts)

/-- `search_testimonies_content` (lines 112-150) over the three-way line
parse: when the read loop aborts on a valid-JSON non-object line, or the
file open fails, the outer `except` at line 145 returns the empty list,
discarding every record. -/
def search_testimonies_content_exc (parse : String → LineParse)
    (searchTerms : List String) (file : Option (List String))
    (s : ModuleState) : List ScoredResult × ModuleState :=
  if uniqueTerms searchTerms = [] then ([], s)
  else
    match file with
    | none => ([], { reads := s.reads + 1 })
    | some lines =>
        match readRecordsExc parse lines with
        | none => ([], { reads := s.reads + 1 })
        | some recs =>
            (sortDesc (scoreRecords (uniqueTerms searchTerms) recs),
             { reads := s.reads + 1 })

/-- Three-way line parser for the scenario corpus extended with a
valid-JSON non-object line `"N"` (such as a bare number `5`). -/
def parseNonObject : String → LineParse := fun s =>
  if s = "A" then
    .record { filename := "a.docx", content := "God healed me of cancer", link := "" }
  else if s = "B" then
    .record { filename := "b.docx", content := "cancer cancer treatment", link := "http://x" }
  else if s = "N" then .nonObject
  else .decodeError

/-- Modelled from the spec's words: remove duplicates from a list while
preserving first-seen order (each element keeps its first occurrence and
all later occurrences are dropped). -/
def dedupFirst : List String → List String
  | [] => []
  | x :: xs => x :: dedupFirst (xs.filter (fun u => u ≠ x))
termination_by l => l.length
decreasing_by
  simp only [List.length_cons]
  exact Nat.lt_succ_of_le (List.length_filter_le _ _)

/-- Invariant of the interleaved `ensure_testimonies_file` model: the lock
mutually excludes the check-then-act sequence (any thread inside the
locked region is the lock holder), at most one successful
fetch-and-validate pass ever occurs, the store is ready exactly when a
successful pass occurred, and while the store is not ready every
completed call has returned 0. -/
def EnsureInv (s : EnsureSys) : Prop :=
  (∀ (i : Nat) (t : EnsureThread),
    s.threads[i]? = some t → t.pc = .locked → s.lockHolder = some i) ∧
  s.succPasses ≤ 1 ∧
  (s.ready = true ↔ s.succPasses = 1) ∧
  (s.ready = false → ∀ (i : Nat) (t : EnsureThread),
    s.threads[i]? = some t → t.pc = .done → t.ret = some 0)

/-! ### Lemmas about the scoring and ranking pipeline -/

theorem mem_insertDesc (x r : ScoredResult) (l : List ScoredResult) :
    r ∈ insertDesc x l ↔ r = x ∨ r ∈ l := by
  induction l with
  | nil => simp [insertDesc]
  | cons y ys ih =>
      simp only [insertDesc]
      split
      · simp only [List.mem_cons, ih]
        tauto
      · simp only [List.mem_cons]

theorem mem_sortDesc (r : ScoredResult) (l : List ScoredResult) :
    r ∈ sortDesc l ↔ r ∈ l := by
  induction l with
  | nil => simp [sortDesc]
  | cons x xs ih => simp [sortDesc, mem_insertDesc, ih]

theorem pairwise_insertDesc (x : ScoredResult) (l : List ScoredResult)
    (h : l.Pairwise (fun a b => b.hitCount ≤ a.hitCount)) :
    (insertDesc x l).Pairwise (fun a b => b.hitCount ≤ a.hitCount) := by
  induction l with
  | nil => simp [insertDesc]
  | cons y ys ih =>
      rw [List.pairwise_cons] at h
      simp only [insertDesc]
      split
      · rename_i hlt
        rw [List.pairwise_cons]
        refine ⟨?_, ih h.2⟩
        intro a ha
        rcases (mem_insertDesc x a ys).mp ha with rfl | ha
        · omega
        · exact h.1 a ha
      · rename_i hge
        rw [List.pairwise_cons]
        refine ⟨?_, List.pairwise_cons.mpr h⟩
        intro a ha
        rcases List.mem_cons.mp ha with rfl | ha
        · omega
        · have := h.1 a ha
          omega

theorem sorted_sortDesc (l : List ScoredResult) :
    (sortDesc l).Pairwise (fun a b => b.hitCount ≤ a.hitCount) := by
  induction l with
  | nil => simp [sortDesc]
  | cons x xs ih => exact pairwise_insertDesc x (sortDesc xs) ih

theorem filter_insertDesc (k : Nat) (x : ScoredResult) (l : List ScoredResult) :
    (insertDesc x l).filter (fun r => r.hitCount = k) =
      (x :: l).filter (fun r => r.hitCount = k) := by
  induction l with
  | nil => rfl
  | cons y ys ih =>
      simp only [insertDesc]
      split
      · rename_i hlt
        by_cases hy : y.hitCount = k
        · have hx : ¬ x.hitCount = k := by omega
          simp [List.filter_cons, hx, hy, ih]
        · simp [List.filter_cons, hy, ih]
      · rfl

theorem filter_sortDesc (k : Nat) (l : List ScoredResult) :
    (sortDesc l).filter (fun r => r.hitCount = k) =
      l.filter (fun r => r.hitCount = k) := by
  induction l with
  | nil => rfl
  | cons x xs ih =>
      simp only [sortDesc]
      rw [filter_insertDesc]
      simp only [List.filter_cons]
      rw [ih]

theorem mem_scoreRecords (r : ScoredResult) (terms : List String)
    (ts : List Testimony) (h : r ∈ scoreRecords terms ts) :
    0 < r.hitCount := by
  induction ts with
  | nil => simp [scoreRecords] at h
  | cons t ts ih =>
      simp only [scoreRecords] at h
      split at h
      · rcases List.mem_cons.mp h with rfl | h
        · assumption
        · exact ih h
      · exact ih h

theorem scoreRecords_nil_terms (ts : List Testimony) :
    scoreRecords [] ts = [] := by
  induction ts with
  | nil => rfl
  | cons t ts ih => simp [scoreRecords, hitCountOf, ih]

theorem uniqueLower_eq_dedupFirst (ts : List String) : ∀ seen : List String,
    uniqueLower seen ts =
      dedupFirst ((ts.map pyLower).filter (fun u => decide (u ∉ seen))) := by
  induction ts with
  | nil => intro seen; simp [uniqueLower, dedupFirst]
  | cons t ts ih =>
      intro seen
      simp only [uniqueLower, List.map_cons, List.filter_cons]
      by_cases h : pyLower t ∈ seen
      · rw [if_pos h]
        have hd : decide (pyLower t ∉ seen) = false := by simp [h]
        rw [hd]
        simp only [Bool.false_eq_true, if_false]
        exact ih seen
      · rw [if_neg h]
        have hd : decide (pyLower t ∉ seen) = true := by simp [h]
        rw [hd]
        simp only [if_true]
        rw [dedupFirst]
        congr 1
        rw [List.filter_filter]
        rw [ih (pyLower t :: seen)]
        congr 1
        apply List.filter_congr
        intro u hu
        simp only [List.mem_cons, decide_not]
        by_cases h1 : u = pyLower t <;> by_cases h2 : u ∈ seen <;> simp [h1, h2]

theorem mem_dedupFirst : ∀ l : List String, ∀ x ∈ dedupFirst l, x ∈ l := by
  intro l
  induction l using dedupFirst.induct with
  | case1 => intro x hx; simp [dedupFirst] at hx
  | case2 y ys ih =>
      intro x hx
      rw [dedupFirst] at hx
      rcases List.mem_cons.mp hx with rfl | hx
      · exact List.mem_cons_self _ _
      · exact List.mem_cons_of_mem _ (List.mem_of_mem_filter (ih x hx))

theorem nodup_dedupFirst : ∀ l : List String, (dedupFirst l).Nodup := by
  intro l
  induction l using dedupFirst.induct with
  | case1 => simp [dedupFirst]
  | case2 y ys ih =>
      simp only [dedupFirst]
      refine List.nodup_cons.mpr ⟨?_, ih⟩
      intro hy
      have := mem_dedupFirst _ _ hy
      have := List.of_mem_filter this
      simp at this

theorem mem_uniqueLower (ts : List String) : ∀ (seen : List String) (t : String),
    t ∈ ts → pyLower t ∉ seen → pyLower t ∈ uniqueLower seen ts := by
  induction ts with
  | nil => intro seen t ht; simp at ht
  | cons u us ih =>
      intro seen t ht hns
      simp only [uniqueLower]
      rcases List.mem_cons.mp ht with rfl | ht
      · rw [if_neg hns]
        exact List.mem_cons_self _ _
      · by_cases h : pyLower u ∈ seen
        · rw [if_pos h]
          exact ih seen t ht hns
        · rw [if_neg h]
          by_cases he : pyLower t = pyLower u
          · rw [he]; exact List.mem_cons_self _ _
          · refine List.mem_cons_of_mem _ (ih _ t ht ?_)
            simp only [List.mem_cons]
            tauto

/-- C1: for every term list, corpus file and module state,
`search_testimonies_content` returns only records with `hitCount ≥ 1`,
sorted by `hitCount` descending, and records of equal `hitCount` keep the
corpus's original relative order (the filtered-but-unsorted score list,
which is in corpus order, agrees with the output on every hit-count
class). -/
theorem C1_match_only_positive_sorted_stable (parse : String → Option Testimony)
    (terms : List String) (file : Option (List String)) (s : ModuleState) :
    (∀ r ∈ (search_testimonies_content parse terms file s).1, 1 ≤ r.hitCount) ∧
    ((search_testimonies_content parse terms file s).1.Pairwise
      (fun a b => b.hitCount ≤ a.hitCount)) ∧
    (∀ k : Nat,
      ((search_testimonies_content parse terms file s).1.filter
          (fun r => r.hitCount = k)) =
        ((scoreRecords (uniqueTerms terms)
            (match file with
             | none => []
             | some lines => readRecords parse lines)).filter
          (fun r => r.hitCount = k))) := by
  unfold search_testimonies_content
  by_cases h : uniqueTerms terms = []
  · simp only [h, if_pos rfl]
    refine ⟨by simp, by simp, ?_⟩
    intro k
    cases file with
    | none => simp [scoreRecords_nil_terms]
    | some lines => simp [scoreRecords_nil_terms]
  · rw [if_neg h]
    cases file with
    | none =>
        refine ⟨by simp, by simp, ?_⟩
        intro k
        simp [scoreRecords]
    | some lines =>
        refine ⟨?_, sorted_sortDesc _, ?_⟩
        · intro r hr
          have := mem_scoreRecords r _ _ ((mem_sortDesc r _).mp hr)
          omega
        · intro k
          exact filter_sortDesc k _

/-- C1 witness: on the scenario corpus with terms `["cancer"]`, the first
returned record has `hitCount ≥ 1`. -/
theorem C1_witness :
    1 ≤ ({ filename := "b.docx", link := "http://x", hitCount := 2 } :
        ScoredResult).hitCount :=
  (C1_match_only_positive_sorted_stable parseScenario ["cancer"]
      (some ["A", "B"]) { reads := 0 }).1
    { filename := "b.docx", link := "http://x", hitCount := 2 } (by decide)

/-- C2: a record's hit count is the sum, over the deduplicated lowercased
terms, of the non-overlapping left-to-right occurrence count (`pyCount`)
of the term in the lowercased content; every returned record is one of
the in-order scored records carrying exactly that hit count; and on the
spec's two-record scenario corpus with terms `["cancer"]` the result is
`b.docx` with 2 hits before `a.docx` with 1 hit. -/
theorem C2_hitcount_sum_and_scenario :
    (∀ (terms : List String) (t : Testimony),
        hitCountOf terms t =
          (terms.map (fun term => pyCount (pyLower t.content) term)).sum) ∧
    (∀ (parse : String → Option Testimony) (terms lines : List String)
        (s : ModuleState) (r : ScoredResult),
        r ∈ (search_testimonies_content parse terms (some lines) s).1 →
          r ∈ scoreRecords (uniqueTerms terms) (readRecords parse lines)) ∧
    (search_testimonies_content parseScenario ["cancer"] (some ["A", "B"])
        { reads := 0 }).1 =
      [{ filename := "b.docx", link := "http://x", hitCount := 2 },
       { filename := "a.docx", link := "", hitCount := 1 }] := by
  refine ⟨fun terms t => rfl, ?_, by decide⟩
  intro parse terms lines s r hr
  unfold search_testimonies_content at hr
  by_cases h : uniqueTerms terms = []
  · simp [h] at hr
  · rw [if_neg h] at hr
    exact (mem_sortDesc r _).mp hr

/-- C2 witness: the scenario's top result is indeed one of the in-order
scored records of the scenario corpus. -/
theorem C2_witness :
    ({ filename := "b.docx", link := "http://x", hitCount := 2 } : ScoredResult) ∈
      scoreRecords (uniqueTerms ["cancer"]) (readRecords parseScenario ["A", "B"]) :=
  C2_hitcount_sum_and_scenario.2.1 parseScenario ["cancer"] ["A", "B"]
    { reads := 0 }
    { filename := "b.docx", link := "http://x", hitCount := 2 } (by decide)

/-- C3 counterexample: `search_testimonies_content` does not discard
terms that are empty after trimming.  The whitespace term `" "` survives
normalization unchanged and is scored: on a one-record corpus whose
content is `"a b"` the search returns that record with one hit, whereas
the claim's normalization would discard the term, leaving an empty term
list and an empty result. -/
theorem C3_counterexample :
    uniqueTerms [" "] = [" "] ∧
    (search_testimonies_content parseSpace [" "] (some ["r"]) { reads := 0 }).1 =
      [{ filename := "f.docx", link := "", hitCount := 1 }] := by decide

/-- C3 (amended): the Content Matcher's normalization lowercases every
term and removes duplicates (by lowercase equality) preserving first-seen
order — it equals first-seen deduplication of the lowercased terms, is
duplicate-free, and keeps the lowercase form of every input term — but it
does not trim terms nor discard empty or whitespace-only terms (the HTTP
endpoint discards those before the matcher is called). -/
theorem C3_amended_normalization (terms : List String) :
    uniqueTerms terms = dedupFirst (terms.map pyLower) ∧
    (uniqueTerms terms).Nodup ∧
    (∀ t ∈ terms, pyLower t ∈ uniqueTerms terms) := by
  have heq : uniqueTerms terms = dedupFirst (terms.map pyLower) := by
    unfold uniqueTerms
    rw [uniqueLower_eq_dedupFirst]
    congr 1
    apply List.filter_eq_self.mpr
    intro u hu
    simp
  refine ⟨heq, ?_, ?_⟩
  · rw [heq]; exact nodup_dedupFirst _
  · intro t ht
    exact mem_uniqueLower terms [] t ht (by simp)

/-- C3 witness: lowercasing and first-seen deduplication on a concrete
term list. -/
theorem C3_witness :
    pyLower "God" ∈ uniqueTerms ["God", "love"] :=
  (C3_amended_normalization ["God", "love"]).2.2 "God" (by decide)

/-- C4 counterexample: the live search path re-reads the corpus file on
every call.  A first search on the scenario corpus succeeds (nonempty
result, one file read); a second identical search performs a second file
read, so an operation does re-read and re-parse the corpus file after the
first successful load. -/
theorem C4_counterexample :
    (search_testimonies_content parseScenario ["cancer"] (some ["A", "B"])
        { reads := 0 }).1 ≠ [] ∧
    (search_testimonies_content parseScenario ["cancer"] (some ["A", "B"])
        { reads := 0 }).2.reads = 1 ∧
    (search_testimonies_content parseScenario ["cancer"] (some ["A", "B"])
        (search_testimonies_content parseScenario ["cancer"] (some ["A", "B"])
          { reads := 0 }).2).2.reads = 2 := by decide

/-- C4 (amended): only `search.py`'s `load_testimonies_data` caches the
corpus: with a populated cache it returns the cached corpus unchanged
without reading the file, and after any first call every later call
returns the same corpus with no further read and no cache mutation.  The
live search path (`testimony_search.search_testimonies_content`) has no
such cache and re-reads the file on every call (see the
counterexample). -/
theorem C4_amended_load_cached (parse parse2 : String → Option Testimony)
    (file file2 : Option (List String)) (reads : Nat) (d : List Testimony) :
    load_testimonies_data parse file (some d) reads = (d, some d, reads) ∧
    (load_testimonies_data parse2 file2
        (load_testimonies_data parse file none reads).2.1
        (load_testimonies_data parse file none reads).2.2 =
      ((load_testimonies_data parse file none reads).1,
       (load_testimonies_data parse file none reads).2.1,
       (load_testimonies_data parse file none reads).2.2)) := by
  constructor
  · rfl
  · cases file with
    | none => rfl
    | some lines =>
        cases h : parseAllLines parse lines <;>
          simp [load_testimonies_data, h]

theorem readRecordsExc_skip_bad (parse : String → LineParse) (bad : String)
    (h : pyStrip bad = "" ∨ parse (pyStrip bad) = .decodeError) :
    ∀ pre post : List String,
      readRecordsExc parse (pre ++ bad :: post) =
        readRecordsExc parse (pre ++ post) := by
  intro pre
  induction pre with
  | nil =>
      intro post
      simp only [List.nil_append, readRecordsExc]
      rcases h with h | h
      · rw [if_pos h]
      · by_cases hb : pyStrip bad = ""
        · rw [if_pos hb]
        · rw [if_neg hb, h]
  | cons x xs ih =>
      intro post
      simp only [List.cons_append, readRecordsExc]
      by_cases hx : pyStrip x = ""
      · rw [if_pos hx, if_pos hx]
        exact ih post
      · rw [if_neg hx, if_neg hx]
        cases parse (pyStrip x) with
        | decodeError => exact ih post
        | nonObject => rfl
        | record t => exact congrArg (Option.map (fun ts => t :: ts)) (ih post)

theorem readRecordsExc_nonObject (parse : String → LineParse) (bad : String)
    (hno : parse (pyStrip bad) = .nonObject) (hne : pyStrip bad ≠ "") :
    ∀ pre post : List String,
      readRecordsExc parse (pre ++ bad :: post) = none := by
  intro pre
  induction pre with
  | nil =>
      intro post
      simp only [List.nil_append, readRecordsExc]
      rw [if_neg hne, hno]
  | cons x xs ih =>
      intro post
      simp only [List.cons_append, readRecordsExc]
      by_cases hx : pyStrip x = ""
      · rw [if_pos hx]
        exact ih post
      · rw [if_neg hx]
        cases parse (pyStrip x) with
        | decodeError => exact ih post
        | nonObject => rfl
        | record t =>
            exact (congrArg (Option.map (fun ts => t :: ts)) (ih post)).trans rfl

/-- C5 counterexample: a line holding valid JSON that is not an object is
fatal, not skipped.  Inserting the non-object line `"N"` between the two
scenario records makes the whole search return the empty list — every
other well-formed line is discarded — whereas the same file without that
line scores both records.  This refutes "skipped at the record level and
is not fatal; all other well-formed lines of the same file are still
parsed and scored". -/
theorem C5_counterexample :
    (search_testimonies_content_exc parseNonObject ["cancer"]
        (some ["A", "N", "B"]) { reads := 0 }).1 = [] ∧
    (search_testimonies_content_exc parseNonObject ["cancer"]
        (some ["A", "B"]) { reads := 0 }).1 =
      [{ filename := "b.docx", link := "http://x", hitCount := 2 },
       { filename := "a.docx", link := "", hitCount := 1 }] := by decide

/-- C5 (amended): a corpus line that is blank after stripping or that
raises `json.JSONDecodeError` is skipped at the record level and is not
fatal — inserting it anywhere leaves the entire search result and module
state unchanged, and the per-line failure is never surfaced.  A line of
valid JSON that is not an object, however, is fatal: the `AttributeError`
from field extraction escapes the per-line handler, the outer handler
returns the empty list, and every other record of the file is
discarded. -/
theorem C5_skip_nonfatal_and_nonobject_fatal (parse : String → LineParse)
    (terms : List String) (pre post : List String) (bad : String)
    (s : ModuleState) :
    ((pyStrip bad = "" ∨ parse (pyStrip bad) = .decodeError) →
      search_testimonies_content_exc parse terms (some (pre ++ bad :: post)) s =
        search_testimonies_content_exc parse terms (some (pre ++ post)) s) ∧
    (parse (pyStrip bad) = .nonObject → pyStrip bad ≠ "" →
      (search_testimonies_content_exc parse terms
        (some (pre ++ bad :: post)) s).1 = []) := by
  constructor
  · intro h
    unfold search_testimonies_content_exc
    by_cases hu : uniqueTerms terms = []
    · rw [if_pos hu, if_pos hu]
    · rw [if_neg hu, if_neg hu]
      exact congrArg
        (fun r => (match r with
          | none => ([], ({ reads := s.reads + 1 } : ModuleState))
          | some recs =>
              (sortDesc (scoreRecords (uniqueTerms terms) recs),
               ({ reads := s.reads + 1 } : ModuleState))))
        (readRecordsExc_skip_bad parse bad h pre post)
  · intro hno hne
    unfold search_testimonies_content_exc
    by_cases hu : uniqueTerms terms = []
    · rw [if_pos hu]
    · rw [if_neg hu]
      have hr := readRecordsExc_nonObject parse bad hno hne pre post
      exact congrArg
        (fun r => (match r with
          | none => ([], ({ reads := s.reads + 1 } : ModuleState))
          | some recs =>
              (sortDesc (scoreRecords (uniqueTerms terms) recs),
               ({ reads := s.reads + 1 } : ModuleState))).1) hr

/-- C5 witness: a whitespace-only line inserted between the scenario
records changes nothing, while the non-object line `"N"` empties the
result. -/
theorem C5_witness :
    search_testimonies_content_exc parseNonObject ["cancer"]
        (some (["A"] ++ " " :: ["B"])) { reads := 0 } =
      search_testimonies_content_exc parseNonObject ["cancer"]
        (some (["A"] ++ ["B"])) { reads := 0 } ∧
    (search_testimonies_content_exc parseNonObject ["cancer"]
        (some (["A"] ++ "N" :: ["B"])) { reads := 0 }).1 = [] :=
  ⟨(C5_skip_nonfatal_and_nonobject_fatal parseNonObject ["cancer"] ["A"] ["B"]
      " " { reads := 0 }).1 (Or.inl (by decide)),
   (C5_skip_nonfatal_and_nonobject_fatal parseNonObject ["cancer"] ["A"] ["B"]
      "N" { reads := 0 }).2 (by decide) (by decide)⟩

/-- C6: `ensure_testimonies_file` returns the sentinel −1 on every call
made after readiness was established; returns the real non-blank line
count (and sets readiness) on the call that performs the work; and
returns 0 when the download or the validation read fails, leaving the
readiness flag unset so that a subsequent call retries the fetch and, if
that call's environment succeeds, returns the real count. -/
theorem C6_ensure_return_values (env envG : EnsureEnv) (lines linesG : List String) :
    ensure_testimonies_file true env = (-1, true) ∧
    ((env.isPointer = false ∨ env.downloadOk = true) → env.readLines = some lines →
      ensure_testimonies_file false env = ((countNonBlank lines : Int), true)) ∧
    (((env.isPointer = true ∧ env.downloadOk = false) ∨ env.readLines = none) →
      (ensure_testimonies_file false env = (0, false) ∧
       ((envG.isPointer = false ∨ envG.downloadOk = true) →
         envG.readLines = some linesG →
           ensure_testimonies_file (ensure_testimonies_file false env).2 envG =
             ((countNonBlank linesG : Int), true)))) := by
  obtain ⟨p, d, r⟩ := env
  obtain ⟨pG, dG, rG⟩ := envG
  simp only
  refine ⟨rfl, ?_, ?_⟩
  · rintro h rfl
    rcases h with rfl | rfl
    · simp [ensure_testimonies_file]
    · cases p <;> simp [ensure_testimonies_file]
  · intro h
    have h0 : ensure_testimonies_file false ⟨p, d, r⟩ = (0, false) := by
      rcases h with ⟨rfl, rfl⟩ | rfl
      · simp [ensure_testimonies_file]
      · cases p <;> cases d <;> simp [ensure_testimonies_file]
    refine ⟨h0, ?_⟩
    rintro hG rfl
    rw [h0]
    rcases hG with rfl | rfl
    · simp [ensure_testimonies_file]
    · cases pG <;> simp [ensure_testimonies_file]

/-- C6 witness: a failed download returns 0 and leaves the store
not-ready; the retry with a working environment returns the real count. -/
theorem C6_witness :
    ensure_testimonies_file false
        { isPointer := true, downloadOk := false, readLines := none } = (0, false) ∧
    ensure_testimonies_file
        (ensure_testimonies_file false
          { isPointer := true, downloadOk := false, readLines := none }).2
        { isPointer := false, downloadOk := true, readLines := some ["x"] } =
      ((countNonBlank ["x"] : Int), true) := by
  have h := (C6_ensure_return_values
      { isPointer := true, downloadOk := false, readLines := none }
      { isPointer := false, downloadOk := true, readLines := some ["x"] }
      [] ["x"]).2.2 (Or.inl ⟨rfl, rfl⟩)
  exact ⟨h.1, h.2 (Or.inl rfl) rfl⟩

/-- C8: the derivative rules produce the spec's example forms: the
"e"-ending rule for "hope", the base suffix rule for "pray", and the
consonant-vowel-consonant doubling rule for "sin". -/
theorem C8_derivative_examples :
    "hoped" ∈ generate_derivatives "hope" ∧
    "hoping" ∈ generate_derivatives "hope" ∧
    "hopes" ∈ generate_derivatives "hope" ∧
    "prays" ∈ generate_derivatives "pray" ∧
    "prayed" ∈ generate_derivatives "pray" ∧
    "praying" ∈ generate_derivatives "pray" ∧
    "sinning" ∈ generate_derivatives "sin" ∧
    "sinned" ∈ generate_derivatives "sin" := by decide

theorem lexLt_asymm : ∀ a b : List Char, lexLt a b = true → lexLt b a = false := by
  intro a
  induction a with
  | nil => intro b h; cases b <;> rfl
  | cons x as ih =>
      intro b h
      cases b with
      | nil => simp [lexLt] at h
      | cons y bs =>
          simp only [lexLt] at h ⊢
          by_cases hxy : x < y
          · rw [if_neg (lt_asymm hxy), if_pos hxy]
          · rw [if_neg hxy] at h
            by_cases hyx : y < x
            · rw [if_pos hyx] at h; exact absurd h (by simp)
            · rw [if_neg hyx] at h
              rw [if_neg hyx, if_neg hxy]
              exact ih bs h

theorem lexLt_false_trans : ∀ a b c : List Char,
    lexLt b a = false → lexLt c b = false → lexLt c a = false := by
  intro a
  induction a with
  | nil => intro b c h1 h2; cases c <;> rfl
  | cons x as ih =>
      intro b c h1 h2
      cases b with
      | nil => simp [lexLt] at h1
      | cons y bs =>
          cases c with
          | nil => simp [lexLt] at h2
          | cons z cs =>
              simp only [lexLt] at h1 h2 ⊢
              by_cases hyx : y < x
              · rw [if_pos hyx] at h1; exact absurd h1 (by simp)
              · rw [if_neg hyx] at h1
                by_cases hzy : z < y
                · rw [if_pos hzy] at h2; exact absurd h2 (by simp)
                · rw [if_neg hzy] at h2
                  have hxy : x ≤ y := le_of_not_lt hyx
                  have hyz : y ≤ z := le_of_not_lt hzy
                  have hzx : ¬ z < x := not_lt.mpr (le_trans hxy hyz)
                  rw [if_neg hzx]
                  by_cases hxz : x < z
                  · rw [if_pos hxz]
                  · rw [if_neg hxz]
                    have hnxy : ¬ x < y := fun hh =>
                      hxz (lt_of_lt_of_le hh hyz)
                    have hnyz : ¬ y < z := fun hh =>
                      hxz (lt_of_le_of_lt hxy hh)
                    rw [if_neg hnxy] at h1
                    rw [if_neg hnyz] at h2
                    exact ih bs cs h1 h2

theorem mem_insertByTerm (x a : SuggestedTerm) (l : List SuggestedTerm) :
    a ∈ insertByTerm x l ↔ a = x ∨ a ∈ l := by
  induction l with
  | nil => simp [insertByTerm]
  | cons y ys ih =>
      simp only [insertByTerm]
      split
      · simp only [List.mem_cons, ih]
        tauto
      · simp only [List.mem_cons]

theorem pairwise_insertByTerm (x : SuggestedTerm) (l : List SuggestedTerm)
    (h : l.Pairwise (fun a b => termKeyLt b a = false)) :
    (insertByTerm x l).Pairwise (fun a b => termKeyLt b a = false) := by
  induction l with
  | nil => simp [insertByTerm]
  | cons y ys ih =>
      rw [List.pairwise_cons] at h
      simp only [insertByTerm]
      split
      · rename_i hlt
        rw [List.pairwise_cons]
        refine ⟨?_, ih h.2⟩
        intro a ha
        rcases (mem_insertByTerm x a ys).mp ha with rfl | ha
        · exact lexLt_asymm _ _ hlt
        · exact h.1 a ha
      · rename_i hge
        rw [List.pairwise_cons]
        refine ⟨?_, List.pairwise_cons.mpr h⟩
        intro a ha
        rcases List.mem_cons.mp ha with rfl | ha
        · exact eq_false_of_ne_true hge
        · exact lexLt_false_trans _ _ _ (eq_false_of_ne_true hge) (h.1 a ha)

theorem sorted_sortByTerm (l : List SuggestedTerm) :
    (sortByTerm l).Pairwise (fun a b => termKeyLt b a = false) := by
  induction l with
  | nil => simp [sortByTerm]
  | cons x xs ih => exact pairwise_insertByTerm x (sortByTerm xs) ih

/-- C9: `enrich_suggestions` returns its `{term, derivatives}` pairs
sorted case-insensitively (by lowercased term, ascending), while
`enrich_user_terms` keeps the user's original order: its sequence of
terms is a sublist of the comma-split, stripped query, and equals that
list with empties filtered out, with no re-sorting. -/
theorem C9_enrichment_order :
    (∀ rawTerms : List String,
      (enrich_suggestions rawTerms).Pairwise (fun a b => termKeyLt b a = false)) ∧
    (∀ query : String,
      ((enrich_user_terms query).map (fun p => p.term)).Sublist
          ((query.splitOn ",").map pyStrip) ∧
      (enrich_user_terms query).map (fun p => p.term) =
        ((query.splitOn ",").map pyStrip).filter (fun t => t ≠ "")) := by
  refine ⟨fun raw => sorted_sortByTerm _, fun query => ?_⟩
  have hmap : (enrich_user_terms query).map (fun p => p.term) =
      ((query.splitOn ",").map pyStrip).filter (fun t => t ≠ "") := by
    simp only [enrich_user_terms, List.map_map]
    exact List.map_id _
  exact ⟨hmap ▸ List.filter_sublist _, hmap⟩

theorem ensureInv_init (n : Nat) : EnsureInv (ensureInit n) := by
  refine ⟨?_, by simp [ensureInit], by simp [ensureInit], ?_⟩
  · intro i t ht hl
    simp only [ensureInit, List.getElem?_replicate] at ht
    split at ht
    · injection ht with h2
      rw [← h2] at hl
      simp at hl
    · exact absurd ht (by simp)
  · intro _ i t ht hd
    simp only [ensureInit, List.getElem?_replicate] at ht
    split at ht
    · injection ht with h2
      rw [← h2] at hd
      simp at hd
    · exact absurd ht (by simp)

theorem ensureStep_inv (s s' : EnsureSys) (a : EnsureAct)
    (hinv : EnsureInv s) (h : ensureStep s a = some s') : EnsureInv s' := by
  obtain ⟨hlock, hsucc, hready, hdone⟩ := hinv
  cases a with
  | fastCheck i =>
      cases hti : s.threads[i]? with
      | none => simp [ensureStep, hti] at h
      | some t =>
          simp only [ensureStep, hti] at h
          by_cases hpc : t.pc = .start
          · rw [if_pos hpc] at h
            by_cases hr : s.ready = true
            · rw [if_pos hr] at h
              injection h with h1
              subst h1
              refine ⟨?_, hsucc, hready, ?_⟩
              · intro j u hju hl
                rw [List.getElem?_set] at hju
                split at hju
                · split at hju
                  · injection hju with h2
                    rw [← h2] at hl
                    simp at hl
                  · exact absurd hju (by simp)
                · exact hlock j u hju hl
              · intro hrf
                rw [show ({ s with
                      threads := s.threads.set i
                        { pc := .done, ret := some (-1) } } : EnsureSys).ready
                      = s.ready from rfl, hr] at hrf
                cases hrf
            · rw [if_neg hr] at h
              injection h with h1
              subst h1
              refine ⟨?_, hsucc, hready, ?_⟩
              · intro j u hju hl
                rw [List.getElem?_set] at hju
                split at hju
                · split at hju
                  · injection hju with h2
                    rw [← h2] at hl
                    simp at hl
                  · exact absurd hju (by simp)
                · exact hlock j u hju hl
              · intro hrf j u hju hd
                rw [List.getElem?_set] at hju
                split at hju
                · split at hju
                  · injection hju with h2
                    rw [← h2] at hd
                    simp at hd
                  · exact absurd hju (by simp)
                · exact hdone hrf j u hju hd
          · rw [if_neg hpc] at h
            cases h
  | acquire i =>
      cases hti : s.threads[i]? with
      | none => simp [ensureStep, hti] at h
      | some t =>
          cases hlh : s.lockHolder with
          | some k => simp [ensureStep, hti, hlh] at h
          | none =>
              simp only [ensureStep, hti, hlh] at h
              by_cases hpc : t.pc = .acquiring
              · rw [if_pos hpc] at h
                injection h with h1
                subst h1
                refine ⟨?_, hsucc, hready, ?_⟩
                · intro j u hju hl
                  rw [List.getElem?_set] at hju
                  split at hju
                  · rename_i hij
                    rw [hij]
                  · have := hlock j u hju hl
                    rw [hlh] at this
                    cases this
                · intro hrf j u hju hd
                  rw [List.getElem?_set] at hju
                  split at hju
                  · split at hju
                    · injection hju with h2
                      rw [← h2] at hd
                      simp at hd
                    · exact absurd hju (by simp)
                  · exact hdone hrf j u hju hd
              · rw [if_neg hpc] at h
                cases h
  | secondCheck i =>
      cases hti : s.threads[i]? with
      | none => simp [ensureStep, hti] at h
      | some t =>
          simp only [ensureStep, hti] at h
          split at h
          · rename_i hc
            injection h with h1
            subst h1
            refine ⟨?_, hsucc, hready, ?_⟩
            · intro j u hju hl
              rw [List.getElem?_set] at hju
              split at hju
              · split at hju
                · injection hju with h2
                  rw [← h2] at hl
                  simp at hl
                · exact absurd hju (by simp)
              · have := hlock j u hju hl
                rw [hc.2.1] at this
                injection this with h3
                rename_i hij
                exact absurd h3 hij
            · intro hrf
              rw [show ({ s with
                    threads := s.threads.set i { pc := .done, ret := some (-1) },
                    lockHolder := none } : EnsureSys).ready = s.ready from rfl,
                hc.2.2] at hrf
              cases hrf
          · cases h
  | pass i outcome =>
      cases hti : s.threads[i]? with
      | none => simp [ensureStep, hti] at h
      | some t =>
          simp only [ensureStep, hti] at h
          split at h
          · rename_i hc
            have hs0 : s.succPasses = 0 := by
              have : ¬ s.succPasses = 1 := by
                intro he
                have := hready.mpr he
                rw [hc.2.2] at this
                cases this
              omega
            cases outcome with
            | some n =>
                injection h with h1
                subst h1
                refine ⟨?_, by simp [hs0], by simp [hs0], ?_⟩
                · intro j u hju hl
                  simp only at hju
                  rw [List.getElem?_set] at hju
                  split at hju
                  · split at hju
                    · injection hju with h2
                      rw [← h2] at hl
                      simp at hl
                    · exact absurd hju (by simp)
                  · have := hlock j u hju hl
                    rw [hc.2.1] at this
                    injection this with h3
                    rename_i hij
                    exact absurd h3 hij
                · intro hrf
                  cases hrf
            | none =>
                injection h with h1
                subst h1
                have hrdf : s.ready = false := hc.2.2
                refine ⟨?_, hsucc, by rw [← hrdf]; exact hready, ?_⟩
                · intro j u hju hl
                  simp only at hju
                  rw [List.getElem?_set] at hju
                  split at hju
                  · split at hju
                    · injection hju with h2
                      rw [← h2] at hl
                      simp at hl
                    · exact absurd hju (by simp)
                  · have := hlock j u hju hl
                    rw [hc.2.1] at this
                    injection this with h3
                    rename_i hij
                    exact absurd h3 hij
                · intro _ j u hju hd
                  simp only at hju
                  rw [List.getElem?_set] at hju
                  split at hju
                  · split at hju
                    · injection hju with h2
                      rw [← h2]
                    · exact absurd hju (by simp)
                  · exact hdone hrdf j u hju hd
          · cases h

theorem ensureRun_inv : ∀ (acts : List EnsureAct) (s s' : EnsureSys),
    EnsureInv s → ensureRun s acts = some s' → EnsureInv s' := by
  intro acts
  induction acts with
  | nil =>
      intro s s' hi h
      injection h with h1
      rw [← h1]
      exact hi
  | cons a as ih =>
      intro s s' hi h
      simp only [ensureRun] at h
      cases hs : ensureStep s a with
      | none => rw [hs] at h; cases h
      | some s1 =>
          rw [hs] at h
          exact ih s1 s' (ensureStep_inv s s1 a hi hs) h

/-- C10 counterexample: two concurrent `ensure_testimonies_file` calls can
both perform a fetch-and-validate pass.  Both threads pass the unlocked
fast check; thread 0's pass fails (download error), so thread 1, after
acquiring the lock, performs a second pass — the final state shows
`passes = 2`, refuting "at most one invocation performs the
fetch-and-validate pass". -/
theorem C10_counterexample :
    ensureRun (ensureInit 2)
      [.fastCheck 0, .fastCheck 1, .acquire 0, .pass 0 none,
       .acquire 1, .pass 1 (some 5)] =
      some { ready := true, lockHolder := none,
             threads := [{ pc := .done, ret := some 0 },
                         { pc := .done, ret := some 5 }],
             passes := 2, succPasses := 1 } := by decide

/-- C10 (amended): in every interleaving of any number of concurrent
`ensure_testimonies_file` calls, the check-then-act sequence is mutually
excluded (any thread inside the locked region is the unique lock holder),
at most one successful fetch-and-validate pass ever occurs, the store is
ready exactly when a successful pass occurred, and while the store is not
ready every completed call has returned 0 — but after a failed pass a
later call may perform a further pass, so "at most one pass" holds only
for successful passes. -/
theorem C10_amended_mutual_exclusion (n : Nat) (acts : List EnsureAct)
    (s : EnsureSys) (h : ensureRun (ensureInit n) acts = some s) :
    EnsureInv s :=
  ensureRun_inv acts (ensureInit n) s (ensureInv_init n) h

/-- C10 witness: the invariant holds at the final state of a concrete
single-thread successful run. -/
theorem C10_witness :
    EnsureInv { ready := true, lockHolder := none,
                threads := [{ pc := .done, ret := some 3 }],
                passes := 1, succPasses := 1 } :=
  C10_amended_mutual_exclusion 1 [.fastCheck 0, .acquire 0, .pass 0 (some 3)] _
    (by decide)

theorem mem_insertLex (x a : List Char) (l : List (List Char)) :
    a ∈ insertLex x l ↔ a = x ∨ a ∈ l := by
  induction l with
  | nil => simp [insertLex]
  | cons y ys ih =>
      simp only [insertLex]
      split
      · simp only [List.mem_cons, ih]
        tauto
      · simp only [List.mem_cons]

theorem mem_sortLex (a : List Char) (l : List (List Char)) :
    a ∈ sortLex l ↔ a ∈ l := by
  induction l with
  | nil => simp [sortLex]
  | cons x xs ih => simp [sortLex, mem_insertLex, ih]

theorem mem_dedupGo : ∀ (l : List (List Char)) (seen : List (List Char))
    (a : List Char), a ∈ dedupGo seen l → a ∈ l ∨ a ∈ seen := by
  intro l
  induction l with
  | nil => intro seen a ha; simp [dedupGo] at ha
  | cons x xs ih =>
      intro seen a ha
      simp only [dedupGo] at ha
      split at ha
      · rcases ih seen a ha with h | h
        · exact Or.inl (List.mem_cons_of_mem _ h)
        · exact Or.inr h
      · rcases List.mem_cons.mp ha with rfl | ha2
        · exact Or.inl (List.mem_cons_self _ _)
        · rcases ih _ a ha2 with h | h
          · exact Or.inl (List.mem_cons_of_mem _ h)
          · rcases List.mem_cons.mp h with rfl | h2
            · exact Or.inl (List.mem_cons_self _ _)
            · exact Or.inr h2

theorem ws_lowerChar (c : Char) : ws (lowerChar c) = ws c := by
  unfold lowerChar
  split <;> rfl

theorem ws_head_dropWhile : ∀ (l : List Char) (c : Char) (rest : List Char),
    List.dropWhile ws l = c :: rest → ws c = false := by
  intro l
  induction l with
  | nil =>
      intro c rest h
      rw [List.dropWhile_nil] at h
      exact absurd h (by simp)
  | cons x xs ih =>
      intro c rest h
      rw [List.dropWhile_cons] at h
      split at h
      · exact ih c rest h
      · rename_i hx
        injection h with h1 h2
        rw [← h1]
        simpa using hx

theorem pyStripL_prefix_dropWhile (l : List Char) :
    pyStripL l <+: List.dropWhile ws l := by
  unfold pyStripL
  have h := List.dropWhile_suffix ws (l := (List.dropWhile ws l).reverse)
  have h2 : ((List.dropWhile ws (List.dropWhile ws l).reverse).reverse).reverse <:+
      (List.dropWhile ws l).reverse := by
    rw [List.reverse_reverse]
    exact h
  exact List.reverse_suffix.mp h2

theorem pyStripL_head_not_ws (l : List Char) (c : Char) (rest : List Char)
    (h : pyStripL l = c :: rest) : ws c = false := by
  obtain ⟨t, ht⟩ := pyStripL_prefix_dropWhile l
  rw [h] at ht
  exact ws_head_dropWhile l c (rest ++ t) ht.symm

theorem pyStripL_ne_cases (l : List Char) (h : pyStripL l ≠ l) :
    (∃ c, l.head? = some c ∧ ws c = true) ∨
    (∃ c, l.getLast? = some c ∧ ws c = true) := by
  cases l with
  | nil => exact absurd rfl h
  | cons x xs =>
      by_cases hx : ws x = true
      · exact Or.inl ⟨x, rfl, hx⟩
      · simp only [Bool.not_eq_true] at hx
        have hdw : List.dropWhile ws (x :: xs) = x :: xs := by
          rw [List.dropWhile_cons, if_neg (by simp [hx])]
        cases hlast : (x :: xs).getLast? with
        | none => simp at hlast
        | some d =>
            by_cases hd : ws d = true
            · exact Or.inr ⟨d, rfl, hd⟩
            · simp only [Bool.not_eq_true] at hd
              exfalso
              apply h
              unfold pyStripL
              rw [hdw]
              have hrev : (x :: xs).reverse.head? = some d := by
                rw [List.head?_reverse, hlast]
              cases hr : (x :: xs).reverse with
              | nil => simp at hr
              | cons e es =>
                  rw [hr] at hrev
                  injection hrev with he
                  rw [List.dropWhile_cons, if_neg (by simp [he, hd])]
                  rw [← hr, List.reverse_reverse]

theorem cand_len (wl : List Char) (hw : 1 ≤ wl.length) :
    ∀ c ∈ deriveCandidates wl, wl.length < c.length := by
  intro c hc
  simp only [deriveCandidates, List.mem_append] at hc
  rcases hc with ((hb | he) | hy) | hcvc
  · rw [List.mem_map] at hb
    obtain ⟨suf, hsuf, rfl⟩ := hb
    have h1 : 1 ≤ suf.toList.length := by fin_cases hsuf <;> decide
    simp only [List.length_append]
    omega
  · split at he
    · simp only [List.mem_cons, List.not_mem_nil, or_false] at he
      have h1 : ("ing".toList).length = 3 := by decide
      have h2 : ("d".toList).length = 1 := by decide
      have h3 : ("ation".toList).length = 5 := by decide
      rcases he with rfl | rfl | rfl <;>
        simp only [List.length_append, List.length_dropLast] <;> omega
    · simp at he
  · split at hy
    · simp only [List.mem_cons, List.not_mem_nil, or_false] at hy
      have h1 : ("ies".toList).length = 3 := by decide
      have h2 : ("ied".toList).length = 3 := by decide
      have h3 : ("ier".toList).length = 3 := by decide
      rcases hy with rfl | rfl | rfl <;>
        simp only [List.length_append, List.length_dropLast] <;> omega
    · simp at hy
  · split at hcvc
    · rename_i c1 c2 c3 t heq
      split at hcvc
      · simp only [List.mem_cons, List.not_mem_nil, or_false] at hcvc
        have h1 : ("ing".toList).length = 3 := by decide
        have h2 : ("ed".toList).length = 2 := by decide
        have h3 : ("er".toList).length = 2 := by decide
        rcases hcvc with rfl | rfl | rfl <;>
          simp only [List.length_append, List.length_cons] <;> omega
      · simp at hcvc
    · simp at hcvc

theorem cand_head (wl : List Char) (hw : 2 ≤ wl.length) :
    ∀ c ∈ deriveCandidates wl, c.head? = wl.head? := by
  have hne : wl ≠ [] := by
    intro h; rw [h] at hw; simp at hw
  have hdne : wl.dropLast ≠ [] := by
    intro h
    have := congrArg List.length h
    rw [List.length_dropLast] at this
    simp at this
    omega
  have hdh : wl.dropLast.head? = wl.head? := by
    rw [List.head?_dropLast, if_pos (by omega)]
  intro c hc
  simp only [deriveCandidates, List.mem_append] at hc
  rcases hc with ((hb | he) | hy) | hcvc
  · rw [List.mem_map] at hb
    obtain ⟨suf, hsuf, rfl⟩ := hb
    exact List.head?_append_of_ne_nil _ hne
  · split at he
    · simp only [List.mem_cons, List.not_mem_nil, or_false] at he
      rcases he with rfl | rfl | rfl
      · rw [List.head?_append_of_ne_nil _ hdne, hdh]
      · exact List.head?_append_of_ne_nil _ hne
      · rw [List.head?_append_of_ne_nil _ hdne, hdh]
    · simp at he
  · split at hy
    · simp only [List.mem_cons, List.not_mem_nil, or_false] at hy
      rcases hy with rfl | rfl | rfl <;>
        rw [List.head?_append_of_ne_nil _ hdne, hdh]
    · simp at hy
  · split at hcvc
    · rename_i c1 c2 c3 t heq
      split at hcvc
      · simp only [List.mem_cons, List.not_mem_nil, or_false] at hcvc
        rcases hcvc with rfl | rfl | rfl <;>
          rw [List.append_assoc] <;>
          exact List.head?_append_of_ne_nil _ hne
      · simp at hcvc
    · simp at hcvc

theorem cand_last (wl : List Char) :
    ∀ c ∈ deriveCandidates wl, ∃ d, c.getLast? = some d ∧ ws d = false := by
  intro c hc
  simp only [deriveCandidates, List.mem_append] at hc
  rcases hc with ((hb | he) | hy) | hcvc
  · rw [List.mem_map] at hb
    obtain ⟨suf, hsuf, rfl⟩ := hb
    rw [List.getLast?_append]
    fin_cases hsuf <;> first
      | exact ⟨'s', rfl, rfl⟩ | exact ⟨'d', rfl, rfl⟩ | exact ⟨'g', rfl, rfl⟩
      | exact ⟨'r', rfl, rfl⟩ | exact ⟨'y', rfl, rfl⟩ | exact ⟨'n', rfl, rfl⟩
      | exact ⟨'t', rfl, rfl⟩ | exact ⟨'l', rfl, rfl⟩ | exact ⟨'e', rfl, rfl⟩
  · split at he
    · simp only [List.mem_cons, List.not_mem_nil, or_false] at he
      rcases he with rfl | rfl | rfl <;> rw [List.getLast?_append] <;> first
        | exact ⟨'g', rfl, rfl⟩ | exact ⟨'d', rfl, rfl⟩ | exact ⟨'n', rfl, rfl⟩
    · simp at he
  · split at hy
    · simp only [List.mem_cons, List.not_mem_nil, or_false] at hy
      rcases hy with rfl | rfl | rfl <;> rw [List.getLast?_append] <;> first
        | exact ⟨'s', rfl, rfl⟩ | exact ⟨'d', rfl, rfl⟩ | exact ⟨'r', rfl, rfl⟩
    · simp at hy
  · split at hcvc
    · rename_i c1 c2 c3 t heq
      split at hcvc
      · simp only [List.mem_cons, List.not_mem_nil, or_false] at hcvc
        rcases hcvc with rfl | rfl | rfl <;>
          rw [List.append_assoc, List.getLast?_append] <;> first
          | exact ⟨'g', by rfl, rfl⟩ | exact ⟨'d', by rfl, rfl⟩
          | exact ⟨'r', by rfl, rfl⟩
      · simp at hcvc
    · simp at hcvc

/-- C7: `generate_derivatives` never returns a list containing the
original input word itself, and any input whose trimmed, lowercased form
is shorter than 2 characters yields the empty list. -/
theorem C7_derive_excludes_word (word : String) :
    word ∉ generate_derivatives word ∧
    ((lowerL (pyStripL word.toList)).length < 2 → generate_derivatives word = []) := by
  constructor
  · intro hmem
    unfold generate_derivatives at hmem
    by_cases hlen : (lowerL (pyStripL word.toList)).length < 2
    · rw [if_pos hlen] at hmem
      simp at hmem
    · rw [if_neg hlen] at hmem
      rw [List.mem_map] at hmem
      obtain ⟨c, hc, hceq⟩ := hmem
      have hcwl : c = word.toList := by
        cases word with
        | mk data => injection hceq with h1
      subst hcwl
      have h1 := (mem_sortLex _ _).mp hc
      have h2 : word.toList ∈
          (deriveCandidates (lowerL (pyStripL word.toList))).filter
            (fun x => x ≠ lowerL (pyStripL word.toList)) := by
        rcases mem_dedupGo _ _ _ h1 with h | h
        · exact h
        · simp at h
      have h3 : word.toList ∈ deriveCandidates (lowerL (pyStripL word.toList)) :=
        List.mem_of_mem_filter h2
      have hlen2 : 2 ≤ (lowerL (pyStripL word.toList)).length := by omega
      have hlt : (lowerL (pyStripL word.toList)).length < word.toList.length :=
        cand_len _ (by omega) _ h3
      have hsl : (pyStripL word.toList).length =
          (lowerL (pyStripL word.toList)).length := by
        simp [lowerL]
      have hne2 : pyStripL word.toList ≠ word.toList := by
        intro he
        have hlen3 := congrArg List.length he
        omega
      rcases pyStripL_ne_cases _ hne2 with ⟨c0, hh, hws⟩ | ⟨c0, hh, hws⟩
      · have hch : word.toList.head? = (lowerL (pyStripL word.toList)).head? :=
          cand_head _ hlen2 _ h3
        obtain ⟨d, rest, hst⟩ : ∃ d rest, pyStripL word.toList = d :: rest := by
          cases hst0 : pyStripL word.toList with
          | nil => rw [hst0] at hlen2; simp [lowerL] at hlen2
          | cons d rest => exact ⟨d, rest, rfl⟩
        have hdws : ws d = false := pyStripL_head_not_ws _ d rest hst
        have hwh : (lowerL (pyStripL word.toList)).head? = some (lowerChar d) := by
          rw [hst]; rfl
        rw [hch, hwh] at hh
        injection hh with hh1
        rw [← hh1, ws_lowerChar, hdws] at hws
        cases hws
      · obtain ⟨d, hd, hdws⟩ := cand_last _ _ h3
        rw [hh] at hd
        injection hd with hd1
        rw [← hd1, hws] at hdws
        cases hdws
  · intro h
    unfold generate_derivatives
    rw [if_pos h]

/-- C7 witness: the one-character word `"a"` is not among its own
derivatives and yields the empty derivative list. -/
theorem C7_witness :
    "a" ∉ generate_derivatives "a" ∧ generate_derivatives "a" = [] :=
  ⟨(C7_derive_excludes_word "a").1, (C7_derive_excludes_word "a").2 (by decide)⟩

end Bible
